import Mathlib

/-!
# Verification of `@supercat1337/ls-cache` (`src/index.js`, first variant)

Shallow embedding of the `CacheStorage` class over a model of the browser
`localStorage` backend.  The backend is modelled as an ordered association
list `List (String × String)`: `getItem` finds the entry with the given
key, `setItem` updates an existing entry in place or appends a fresh one,
`removeItem` deletes the entry, `key(i)` is positional lookup.  This
mirrors the observable behaviour the source relies on, in particular that
removing an entry shifts the index of every later entry down by one.

JavaScript numbers are modelled as exact integers (`Nat` for wall-clock
seconds, `Int` for stored timestamps): the source only ever manipulates
whole-second timestamps via `Math.ceil(Date.now() / 1000)`, `toString()`
and `parseInt`, so the decimal rendering/parsing of integers is modelled
exactly (the exponential rendering JavaScript applies beyond 1e21 is out
of the model, as is the hexadecimal branch of `parseInt`, neither of which
is reachable with realistic clock values).
-/

namespace LsCache

/-- Model of the `localStorage` backend: an ordered list of key/value
entries, enumerable by position.  Well-formed states have pairwise
distinct keys; the operations below preserve that and none of the
theorems need it as a hypothesis. -/
abbrev Storage := List (String × String)

/-- `storage.getItem(k)`: value of the first entry whose key is `k`
(`null` is modelled as `none`). -/
def getItem : Storage → String → Option String
  | [], _ => none
  | e :: t, k => if e.1 = k then some e.2 else getItem t k

/-- Whether some entry has key `k`. -/
def hasKey : Storage → String → Bool
  | [], _ => false
  | e :: t, k => e.1 = k || hasKey t k

/-- Overwrite every entry with key `k` in place. -/
def updateItem : Storage → String → String → Storage
  | [], _, _ => []
  | e :: t, k, v =>
    if e.1 = k then (k, v) :: updateItem t k v else e :: updateItem t k v

/-- `storage.setItem(k, v)`: overwrite the entry in place when the key is
present, otherwise append a fresh entry at the end. -/
def setItem (s : Storage) (k v : String) : Storage :=
  if hasKey s k then updateItem s k v else s ++ [(k, v)]

/-- `storage.removeItem(k)`: delete the entry with key `k`; later entries
shift down one position. -/
def removeItem : Storage → String → Storage
  | [], _ => []
  | e :: t, k => if e.1 = k then removeItem t k else e :: removeItem t k

/-- `storage.key(i)`: name of the entry at position `i`, if any. -/
def keyAt (s : Storage) (i : Nat) : Option String :=
  (s.get? i).map (fun e => e.1)

/-- `String.prototype.startsWith` on the character lists. -/
def listStarts : List Char → List Char → Bool
  | [], _ => true
  | _ :: _, [] => false
  | a :: as, b :: bs => a == b && listStarts as bs

/-- `str.startsWith(pre)`. -/
def jsStartsWith (pre s : String) : Bool :=
  listStarts pre.data s.data

theorem getItem_updateItem_self (s : Storage) (k v : String)
    (h : hasKey s k = true) : getItem (updateItem s k v) k = some v := by
  induction s with
  | nil => simp [hasKey] at h
  | cons e t ih =>
    by_cases he : e.1 = k
    · simp [updateItem, he, getItem]
    · simp only [hasKey, Bool.or_eq_true, decide_eq_true_eq] at h
      simp only [updateItem, if_neg he, getItem, if_neg he]
      exact ih (h.resolve_left he)

theorem getItem_setItem_self (s : Storage) (k v : String) :
    getItem (setItem s k v) k = some v := by
  unfold setItem
  by_cases h : hasKey s k = true
  · rw [if_pos h]
    exact getItem_updateItem_self s k v h
  · rw [if_neg h]
    induction s with
    | nil => simp [getItem]
    | cons e t ih =>
      simp only [hasKey, Bool.or_eq_true, decide_eq_true_eq, not_or] at h
      simp only [List.cons_append, getItem, if_neg h.1]
      exact ih (by simpa using h.2)

theorem getItem_updateItem_other (s : Storage) (k k' v : String)
    (hne : k' ≠ k) : getItem (updateItem s k v) k' = getItem s k' := by
  induction s with
  | nil => rfl
  | cons e t ih =>
    by_cases he : e.1 = k
    · have hk : k ≠ k' := fun hc => hne hc.symm
      have he2 : e.1 ≠ k' := fun hc => hk (he.symm.trans hc)
      simp only [updateItem, if_pos he, getItem, if_neg hk, if_neg he2]
      exact ih
    · simp only [updateItem, if_neg he, getItem]
      by_cases he2 : e.1 = k'
      · simp [he2]
      · rw [if_neg he2, if_neg he2]
        exact ih

theorem getItem_setItem_other (s : Storage) (k k' v : String) (hne : k' ≠ k) :
    getItem (setItem s k v) k' = getItem s k' := by
  unfold setItem
  by_cases h : hasKey s k = true
  · rw [if_pos h]
    exact getItem_updateItem_other s k k' v hne
  · rw [if_neg h]
    induction s with
    | nil => simp [getItem, Ne.symm hne]
    | cons e t ih =>
      simp only [hasKey, Bool.or_eq_true, decide_eq_true_eq, not_or] at h
      simp only [List.cons_append, getItem]
      by_cases he2 : e.1 = k'
      · simp [he2]
      · rw [if_neg he2, if_neg he2]
        exact ih (by simpa using h.2)

theorem getItem_removeItem_self (s : Storage) (k : String) :
    getItem (removeItem s k) k = none := by
  induction s with
  | nil => rfl
  | cons e t ih =>
    by_cases he : e.1 = k
    · simpa [removeItem, he] using ih
    · simpa [removeItem, he, getItem] using ih

theorem getItem_removeItem_other (s : Storage) (k k' : String) (hne : k' ≠ k) :
    getItem (removeItem s k) k' = getItem s k' := by
  induction s with
  | nil => rfl
  | cons e t ih =>
    by_cases he : e.1 = k
    · have hk : k ≠ k' := fun hc => hne hc.symm
      have he2 : e.1 ≠ k' := fun hc => hk (he.symm.trans hc)
      simpa [removeItem, he, getItem, he2, hk] using ih
    · simp only [removeItem, if_neg he, getItem]
      by_cases he2 : e.1 = k'
      · simp [he2]
      · rw [if_neg he2, if_neg he2]
        exact ih

theorem removeItem_length_le (s : Storage) (k : String) :
    (removeItem s k).length ≤ s.length := by
  induction s with
  | nil => exact Nat.le_refl 0
  | cons e t ih =>
    by_cases he : e.1 = k
    · simp only [removeItem, if_pos he, List.length_cons]
      exact Nat.le_succ_of_le ih
    · simp only [removeItem, if_neg he, List.length_cons]
      exact Nat.succ_le_succ ih

theorem exists_mem_of_getItem (s : Storage) (k : String)
    (h : getItem s k ≠ none) : ∃ e ∈ s, e.1 = k := by
  induction s with
  | nil => simp [getItem] at h
  | cons e t ih =>
    by_cases he : e.1 = k
    · exact ⟨e, List.mem_cons_self _ _, he⟩
    · simp only [getItem, if_neg he] at h
      obtain ⟨e2, hmem, hk⟩ := ih h
      exact ⟨e2, List.mem_cons_of_mem _ hmem, hk⟩

theorem listStarts_append (l r : List Char) : listStarts l (l ++ r) = true := by
  induction l with
  | nil => rfl
  | cons a as ih => simpa [listStarts] using ih

/-! ## Decimal / base-36 rendering and `parseInt`

Models of the JavaScript built-ins `Number.prototype.toString` (for exact
integers, in base 10 and — for the hash — base 36) and `parseInt` (decimal
branch: skip leading whitespace, optional sign, longest digit run). -/

/-- Digit character for a base-36 digit (`0-9` then `a-z`), as produced by
`Number.prototype.toString(36)`. -/
def digitChar (d : Nat) : Char :=
  if d < 10 then Char.ofNat (48 + d) else Char.ofNat (87 + d)

/-- Big-endian digits of `n` in base `b`, with explicit fuel (the fuel
`n + 1` used below always suffices since `n < 2 ^ (n + 1) ≤ b ^ (n + 1)`
for `b ≥ 2`). -/
def toDigits (b : Nat) : Nat → Nat → List Char
  | 0, _ => []
  | fuel + 1, n =>
    if n < b then [digitChar n] else toDigits b fuel (n / b) ++ [digitChar (n % b)]

/-- `n.toString()` for a nonnegative exact integer. -/
def natToStr (n : Nat) : String :=
  String.mk (toDigits 10 (n + 1) n)

/-- `n.toString()` for an exact integer (decimal, `-` sign). -/
def intToStr (z : Int) : String :=
  if z < 0 then "-" ++ natToStr z.natAbs else natToStr z.natAbs

/-- `n.toString(36)` for a nonnegative exact integer, as used by the
default hash. -/
def natToStr36 (n : Nat) : String :=
  String.mk (toDigits 36 (n + 1) n)

/-- Numeric value of a decimal digit character. -/
def charVal (c : Char) : Nat := c.toNat - 48

/-- Value of a big-endian run of decimal digit characters. -/
def digitsVal (ds : List Char) : Nat :=
  ds.foldl (fun a c => a * 10 + charVal c) 0

/-- The whitespace characters `parseInt` skips (the ones representable in
our inputs). -/
def jsWhitespace (c : Char) : Bool :=
  c = ' ' || c = '\t' || c = '\n' || c = '\r'

/-- Longest leading run of decimal digits, `none` when empty (`parseInt`
yields `NaN` then). -/
def parseDigits (cs : List Char) : Option Nat :=
  let ds := cs.takeWhile fun c => c.isDigit
  if ds.isEmpty then none else some (digitsVal ds)

/-- Sign handling of `parseInt` after whitespace has been skipped. -/
def parseSigned : List Char → Option Int
  | [] => none
  | c :: rest =>
    if c = '-' then (parseDigits rest).map (fun n => -(n : Int))
    else if c = '+' then (parseDigits rest).map (fun n => (n : Int))
    else (parseDigits (c :: rest)).map (fun n => (n : Int))

/-- `parseInt(str)` (decimal branch; `NaN` is modelled as `none`). -/
def parseIntChars (cs0 : List Char) : Option Int :=
  parseSigned (cs0.dropWhile jsWhitespace)

/-- `parseInt(str)` on a string. -/
def parseIntStr (s : String) : Option Int :=
  parseIntChars s.data

/-- `parseInt` applied to a `getItem` result (`parseInt(null)` parses the
string `"null"`, which is `NaN`). -/
def parseIntOpt (o : Option String) : Option Int :=
  o.bind parseIntStr

theorem digitChar_lt_10 (d : Nat) (h : d < 10) :
    digitChar d = Char.ofNat (48 + d) := by
  simp [digitChar, h]

theorem digitChar_isDigit (d : Nat) (h : d < 10) :
    (digitChar d).isDigit = true := by
  rw [digitChar_lt_10 d h]
  interval_cases d <;> decide

theorem charVal_digitChar (d : Nat) (h : d < 10) :
    charVal (digitChar d) = d := by
  rw [digitChar_lt_10 d h]
  interval_cases d <;> decide

theorem digitChar_not_ws (d : Nat) (h : d < 10) :
    jsWhitespace (digitChar d) = false := by
  rw [digitChar_lt_10 d h]
  interval_cases d <;> decide

theorem digitChar_ne_minus (d : Nat) (h : d < 10) : digitChar d ≠ '-' := by
  rw [digitChar_lt_10 d h]
  interval_cases d <;> decide

theorem digitChar_ne_plus (d : Nat) (h : d < 10) : digitChar d ≠ '+' := by
  rw [digitChar_lt_10 d h]
  interval_cases d <;> decide

theorem toDigits_all_digit (fuel n : Nat) :
    ∀ c ∈ toDigits 10 fuel n, ∃ d, d < 10 ∧ c = digitChar d := by
  induction fuel generalizing n with
  | zero => intro c hc; simp [toDigits] at hc
  | succ fuel ih =>
    intro c hc
    by_cases h : n < 10
    · simp only [toDigits, if_pos h, List.mem_singleton] at hc
      exact ⟨n, h, hc⟩
    · simp only [toDigits, if_neg h, List.mem_append, List.mem_singleton] at hc
      rcases hc with hc | hc
      · exact ih (n / 10) c hc
      · exact ⟨n % 10, Nat.mod_lt _ (by omega), hc⟩

theorem toDigits_succ_ne_nil (fuel n : Nat) :
    toDigits 10 (fuel + 1) n ≠ [] := by
  by_cases h10 : n < 10
  · simp [toDigits, h10]
  · simp [toDigits, h10]

theorem digitsVal_append (ds : List Char) (c : Char) :
    digitsVal (ds ++ [c]) = digitsVal ds * 10 + charVal c := by
  simp [digitsVal, List.foldl_append]

theorem digitsVal_toDigits (fuel n : Nat) (h : n < 10 ^ fuel) :
    digitsVal (toDigits 10 fuel n) = n := by
  induction fuel generalizing n with
  | zero =>
    have hn : n = 0 := by
      have := h
      simp only [pow_zero] at this
      omega
    subst hn
    rfl
  | succ fuel ih =>
    by_cases h10 : n < 10
    · simp only [toDigits, if_pos h10]
      simpa [digitsVal] using charVal_digitChar n h10
    · simp only [toDigits, if_neg h10]
      rw [digitsVal_append, charVal_digitChar (n % 10) (Nat.mod_lt _ (by omega))]
      rw [ih (n / 10) (by
        rw [Nat.div_lt_iff_lt_mul (by omega)]
        calc n < 10 ^ (fuel + 1) := h
        _ = 10 ^ fuel * 10 := by ring)]
      omega

theorem lt_ten_pow_succ (n : Nat) : n < 10 ^ (n + 1) :=
  Nat.lt_of_lt_of_le (Nat.lt_two_pow n)
    (Nat.le_trans (Nat.pow_le_pow_left (by omega) n)
      (Nat.pow_le_pow_right (by omega) (Nat.le_succ n)))

theorem takeWhile_all_true {α : Type} (p : α → Bool) (l : List α)
    (h : ∀ c ∈ l, p c = true) : l.takeWhile p = l := by
  induction l with
  | nil => rfl
  | cons a t ih =>
    rw [List.takeWhile_cons, if_pos (h a (List.mem_cons_self _ _))]
    rw [ih fun c hc => h c (List.mem_cons_of_mem _ hc)]

theorem dropWhile_all_false {α : Type} (p : α → Bool) (l : List α)
    (h : ∀ c ∈ l, p c = false) : l.dropWhile p = l := by
  cases l with
  | nil => rfl
  | cons a t =>
    rw [List.dropWhile_cons, if_neg (by simp [h a (List.mem_cons_self _ _)])]

theorem parseDigits_toDigits (n : Nat) :
    parseDigits (toDigits 10 (n + 1) n) = some n := by
  have hall : ∀ c ∈ toDigits 10 (n + 1) n, c.isDigit = true := fun c hc => by
    obtain ⟨d, hd, rfl⟩ := toDigits_all_digit (n + 1) n c hc
    exact digitChar_isDigit d hd
  unfold parseDigits
  rw [takeWhile_all_true _ _ hall]
  rw [if_neg (by simpa [List.isEmpty_iff] using toDigits_succ_ne_nil n n)]
  rw [digitsVal_toDigits (n + 1) n (lt_ten_pow_succ n)]

theorem parseIntChars_natDigits (n : Nat) :
    parseIntChars (toDigits 10 (n + 1) n) = some (n : Int) := by
  have hall := toDigits_all_digit (n + 1) n
  unfold parseIntChars
  rw [dropWhile_all_false _ _ (fun c hc => by
    obtain ⟨d, hd, rfl⟩ := hall c hc
    exact digitChar_not_ws d hd)]
  obtain ⟨c, rest, hcr⟩ : ∃ c rest, toDigits 10 (n + 1) n = c :: rest := by
    rcases hds : toDigits 10 (n + 1) n with _ | ⟨c, rest⟩
    · exact absurd hds (toDigits_succ_ne_nil n n)
    · exact ⟨c, rest, rfl⟩
  obtain ⟨d, hd, hc⟩ := hall c (by rw [hcr]; exact List.mem_cons_self _ _)
  rw [hcr]
  simp only [parseSigned]
  rw [if_neg (hc ▸ digitChar_ne_minus d hd), if_neg (hc ▸ digitChar_ne_plus d hd)]
  rw [← hcr, parseDigits_toDigits n]
  rfl

theorem parseIntStr_natToStr (n : Nat) :
    parseIntStr (natToStr n) = some (n : Int) :=
  parseIntChars_natDigits n

theorem parseIntStr_intToStr (z : Int) :
    parseIntStr (intToStr z) = some z := by
  by_cases hz : z < 0
  · unfold intToStr
    rw [if_pos hz]
    unfold parseIntStr parseIntChars
    have hdata : ("-" ++ natToStr z.natAbs).data = '-' :: toDigits 10 (z.natAbs + 1) z.natAbs := rfl
    rw [hdata]
    rw [show List.dropWhile jsWhitespace ('-' :: toDigits 10 (z.natAbs + 1) z.natAbs)
        = '-' :: toDigits 10 (z.natAbs + 1) z.natAbs from by
      rw [List.dropWhile_cons, if_neg (by decide)]]
    simp only [parseSigned, if_pos rfl]
    rw [parseDigits_toDigits z.natAbs]
    have hval : -((z.natAbs : Nat) : Int) = z := by omega
    exact congrArg some hval
  · obtain ⟨m, rfl⟩ : ∃ m : Nat, z = (m : Int) := ⟨z.toNat, by omega⟩
    unfold intToStr
    rw [if_neg hz]
    rw [show (Int.natAbs (m : Int)) = m from by omega]
    exact parseIntStr_natToStr m

/-! ## The default hash (`hash` in `src/index.js`)

`hash = ((hash << 5) - hash + str.charCodeAt(i)) | 0` over the code units,
then `(hash >>> 0).toString(36)`.  JavaScript bitwise operators work on
signed 32-bit integers; `| 0` truncates to that range and `>>> 0`
reinterprets the result as an unsigned 32-bit integer.  Characters are
modelled by their code points (identical to UTF-16 code units on the
Basic Multilingual Plane, which covers every input used here). -/

/-- `x | 0`: truncation to a signed 32-bit integer. -/
def toInt32 (n : Int) : Int :=
  (n + 2 ^ 31) % 2 ^ 32 - 2 ^ 31

/-- `x >>> 0`: reinterpretation as an unsigned 32-bit integer. -/
def toUInt32 (n : Int) : Nat :=
  (n % 2 ^ 32).toNat

/-- One step of the hash loop: `((hash << 5) - hash + code) | 0` (the
shift itself also truncates to 32 bits). -/
def hashStep (h : Int) (code : Nat) : Int :=
  toInt32 (toInt32 (h * 2 ^ 5) - h + code)

/-- The 32-bit accumulator after the whole loop. -/
def hashInt (s : String) : Int :=
  s.data.foldl (fun h c => hashStep h c.toNat) 0

/-- `hash(str)`: base-36 string of the unsigned accumulator. -/
def hash (s : String) : String :=
  natToStr36 (toUInt32 (hashInt s))

/-! ## The `CacheStorage` class

Every method is parametrised by the instance's namespace `pfx`
(`this.prefix`, default `"cache"`), by the configured key encoder where it
uses one (`cacheStorageConfig.keyEncoder`, default `hash`), and by the
current wall-clock reading: `now` is `Math.ceil(Date.now() / 1000)` in
whole seconds, `nowMs` is `Date.now()` in milliseconds.  Methods that
mutate the backend return the new `Storage`; methods that also produce a
result return a pair. -/

/-- The physical key `` `${prefix}.${key}.${field}` ``. -/
def fieldKey (pfx k f : String) : String :=
  pfx ++ "." ++ k ++ "." ++ f

/-- The decoded record `{created, expires, value}` returned by `readKey`. -/
structure KeyData where
  created : Int
  expires : Int
  value : String
deriving DecidableEq, Repr

/-- `removeKey(key)` (src lines 187-191): unconditionally delete the three
physical entries of a logical key. -/
def removeKey (pfx : String) (s : Storage) (k : String) : Storage :=
  removeItem (removeItem (removeItem s (fieldKey pfx k "created"))
    (fieldKey pfx k "expires")) (fieldKey pfx k "value")

/-- `readKey(key)` (src lines 84-114): decode the record; on a missing or
non-parsing field, or when `now > expires`, call `removeKey` and return
`null`. -/
def readKey (pfx : String) (now : Nat) (s : Storage) (k : String) :
    Option KeyData × Storage :=
  match parseIntOpt (getItem s (fieldKey pfx k "created")) with
  | none => (none, removeKey pfx s k)
  | some created =>
    match parseIntOpt (getItem s (fieldKey pfx k "expires")) with
    | none => (none, removeKey pfx s k)
    | some expires =>
      match getItem s (fieldKey pfx k "value") with
      | none => (none, removeKey pfx s k)
      | some v =>
        if (now : Int) > expires then (none, removeKey pfx s k)
        else (some ⟨created, expires, v⟩, s)

/-- `setKey(key, value, ttl)` (src lines 123-133): store
`created = now`, `expires = now + ttl`, `value`. -/
def setKey (pfx : String) (now : Nat) (s : Storage) (k v : String)
    (ttl : Int) : Storage :=
  setItem (setItem (setItem s (fieldKey pfx k "created") (natToStr now))
    (fieldKey pfx k "expires") (intToStr ((now : Int) + ttl)))
    (fieldKey pfx k "value") v

/-- `getKeyName(text)` (src lines 46-48): apply the configured encoder. -/
def getKeyName (enc : String → String) (text : String) : String :=
  enc text

/-- `write(url, value, ttl)` (src lines 57-60). -/
def write (pfx : String) (enc : String → String) (now : Nat) (s : Storage)
    (url v : String) (ttl : Int) : Storage :=
  setKey pfx now s (getKeyName enc url) v ttl

/-- `read(url)` (src lines 68-76). -/
def read (pfx : String) (enc : String → String) (now : Nat) (s : Storage)
    (url : String) : Option String × Storage :=
  let r := readKey pfx now s (getKeyName enc url)
  match r.1 with
  | none => (none, r.2)
  | some kd => (some kd.value, r.2)

/-- The logical-key segment
`` key.replace(`${prefix}.`, "").split(".")[0] `` of a physical key that
starts with `` `${prefix}.` `` (the first occurrence of the pattern is at
position 0, so `replace` drops the first `prefix.length + 1` characters). -/
def logicalOf (pfx key : String) : String :=
  String.mk ((key.data.drop (pfx.length + 1)).takeWhile (fun c => c != '.'))

/-- First pass of `getKeyNames()` (src lines 143-150): scan every backend
entry in order and collect the deduplicated logical keys under the
instance's namespace (a JS `Set` preserves insertion order). -/
def collectKeys (pfx : String) (s : Storage) : List String :=
  s.foldl (fun acc e =>
    if jsStartsWith (pfx ++ ".") e.1 then
      if logicalOf pfx e.1 ∈ acc then acc else acc ++ [logicalOf pfx e.1]
    else acc) []

/-- Second pass of `getKeyNames()` (src lines 152-158): keep the candidates
for which `readKey` returns a record, threading the backend state through
the `readKey` calls (each one may prune a stale record). -/
def filterValid (pfx : String) (now : Nat) :
    List String → Storage → List String × Storage
  | [], s => ([], s)
  | k :: ks, s =>
    let r := readKey pfx now s k
    let rest := filterValid pfx now ks r.2
    match r.1 with
    | some _ => (k :: rest.1, rest.2)
    | none => rest

/-- `getKeyNames()` (src lines 139-161). -/
def getKeyNames (pfx : String) (now : Nat) (s : Storage) :
    List String × Storage :=
  filterValid pfx now (collectKeys pfx s) s

/-- `removeOutdatedKeys()` (src lines 166-168): `getKeyNames` called for
its pruning side effect. -/
def removeOutdatedKeys (pfx : String) (now : Nat) (s : Storage) : Storage :=
  (getKeyNames pfx now s).2

/-- The loop of `removeAll()` (src lines 174-179):
`for (let i = 0; i < storage.length; i++)` re-reads `length` every
iteration and removes the entry at the (shifting) position `i` when its
key is under the prefix.  The loop body runs at most `s.length` times
(`i` grows by one per iteration and `length` never grows), so the fuel
`s.length + 1` supplied by `removeAll` makes the fuel-free guard `i <
s.length` the only exit actually taken. -/
def removeAllLoop (pfx : String) : Nat → Nat → Storage → Storage
  | 0, _, s => s
  | fuel + 1, i, s =>
    if i < s.length then
      removeAllLoop pfx fuel (i + 1)
        (match keyAt s i with
         | some key => if jsStartsWith (pfx ++ ".") key then removeItem s key else s
         | none => s)
    else s

/-- `removeAll()` (src lines 173-180). -/
def removeAll (pfx : String) (s : Storage) : Storage :=
  removeAllLoop pfx (s.length + 1) 0 s

/-- The loop of `removeKeysCreatedBefore(date)` (src lines 201-210), with
the same indexed iteration over a shrinking backend; `ts` is
`Math.ceil(created_date.getTime() / 1000)`. -/
def removeOldLoop (pfx : String) (now : Nat) (ts : Int) :
    Nat → Nat → Storage → Storage
  | 0, _, s => s
  | fuel + 1, i, s =>
    if i < s.length then
      removeOldLoop pfx now ts fuel (i + 1)
        (match keyAt s i with
         | some key =>
           if jsStartsWith (pfx ++ ".") key then
             let r := readKey pfx now s (logicalOf pfx key)
             match r.1 with
             | some kd =>
               if kd.created < ts then removeKey pfx r.2 (logicalOf pfx key) else r.2
             | none => r.2
           else s
         | none => s)
    else s

/-- `removeKeysCreatedBefore(created_date)` (src lines 198-211). -/
def removeKeysCreatedBefore (pfx : String) (now : Nat) (ts : Int)
    (s : Storage) : Storage :=
  removeOldLoop pfx now ts (s.length + 1) 0 s

/-- The constructor (src lines 23-39): throw when
`cacheStorageConfig.storage` is undefined (`storage = none`); otherwise
probe the backend by `setItem` / `removeItem` on the throwaway key
`"test." + Date.now()` and throw when the probe raises (`probeOk =
false`, e.g. storage disabled by privacy mode).  On success the instance
(its prefix) and the post-probe backend state are returned. -/
def construct (pfx : String) (storage : Option Storage) (probeOk : Bool)
    (nowMs : Nat) : Except String (String × Storage) :=
  match storage with
  | none => Except.error "storage is undefined"
  | some s =>
    if probeOk then
      Except.ok (pfx, removeItem (setItem s ("test." ++ natToStr nowMs)
        ("test." ++ natToStr nowMs)) ("test." ++ natToStr nowMs))
    else Except.error "storage is not available"

/-! ## Structure of the physical keys -/

/-- The three field suffixes used by the record encoding. -/
def fields : List String := ["created", "expires", "value"]

theorem str_ext {s t : String} (h : s.data = t.data) : s = t := by
  cases s; cases t; exact congrArg String.mk h

theorem fieldKey_data (pfx k f : String) :
    (fieldKey pfx k f).data = pfx.data ++ '.' :: (k.data ++ '.' :: f.data) := by
  simp [fieldKey, String.data_append, List.append_assoc]

/-- Splitting at a separator that occurs in neither left part is
unambiguous. -/
theorem sep_split_inj : ∀ (xs ys u v : List Char), '.' ∉ xs → '.' ∉ ys →
    xs ++ '.' :: u = ys ++ '.' :: v → xs = ys ∧ u = v := by
  intro xs
  induction xs with
  | nil =>
    intro ys u v _ hys h
    cases ys with
    | nil => simpa using h
    | cons b bs =>
      simp only [List.nil_append, List.cons_append, List.cons_eq_cons] at h
      exact absurd (h.1 ▸ List.mem_cons_self b bs) (h.1 ▸ hys)
  | cons a as ih =>
    intro ys u v hxs hys h
    cases ys with
    | nil =>
      simp only [List.cons_append, List.nil_append, List.cons_eq_cons] at h
      exact absurd (h.1 ▸ List.mem_cons_self a as) (fun hc => hxs (h.1 ▸ hc))
    | cons b bs =>
      simp only [List.cons_append, List.cons_eq_cons] at h
      obtain ⟨rfl, h2⟩ := h
      obtain ⟨h3, h4⟩ := ih bs u v (fun hc => hxs (List.mem_cons_of_mem _ hc))
        (fun hc => hys (List.mem_cons_of_mem _ hc)) h2
      exact ⟨by rw [h3], h4⟩

theorem fields_sep_free (f : String) (hf : f ∈ fields) : '.' ∉ f.data := by
  simp only [fields, List.mem_cons, List.not_mem_nil, or_false] at hf
  rcases hf with rfl | rfl | rfl <;> decide

/-- A physical key determines its logical key and field suffix: the field
suffix is separator-free, so reading the key from the right is
unambiguous (this holds for arbitrary logical keys). -/
theorem fieldKey_inj {pfx a b fa fb : String} (hfa : fa ∈ fields)
    (hfb : fb ∈ fields) (h : fieldKey pfx a fa = fieldKey pfx b fb) :
    a = b ∧ fa = fb := by
  have hd := congrArg String.data h
  rw [fieldKey_data, fieldKey_data] at hd
  have hd2 : a.data ++ '.' :: fa.data = b.data ++ '.' :: fb.data :=
    List.cons_injective.eq_iff.mp (List.append_cancel_left hd)
  have hrev := congrArg List.reverse hd2
  simp only [List.reverse_append, List.reverse_cons, List.append_assoc] at hrev
  have hsep : fa.data.reverse ++ '.' :: a.data.reverse
      = fb.data.reverse ++ '.' :: b.data.reverse := by
    simpa using hrev
  obtain ⟨h1, h2⟩ := sep_split_inj _ _ _ _
    (by simpa using fields_sep_free fa hfa)
    (by simpa using fields_sep_free fb hfb) hsep
  exact ⟨str_ext (List.reverse_injective h2),
    str_ext (List.reverse_injective h1)⟩

theorem fieldKey_distinct_fields {pfx a b fa fb : String} (hfa : fa ∈ fields)
    (hfb : fb ∈ fields) (hne : fa ≠ fb) : fieldKey pfx a fa ≠ fieldKey pfx b fb :=
  fun hc => hne (fieldKey_inj hfa hfb hc).2

theorem fieldKey_distinct_keys {pfx a b fa fb : String} (hfa : fa ∈ fields)
    (hfb : fb ∈ fields) (hne : a ≠ b) : fieldKey pfx a fa ≠ fieldKey pfx b fb :=
  fun hc => hne (fieldKey_inj hfa hfb hc).1

theorem mem_fields_created : "created" ∈ fields := by decide
theorem mem_fields_expires : "expires" ∈ fields := by decide
theorem mem_fields_value : "value" ∈ fields := by decide

theorem jsStartsWith_fieldKey (pfx k f : String) :
    jsStartsWith (pfx ++ ".") (fieldKey pfx k f) = true := by
  unfold jsStartsWith
  have h1 : (fieldKey pfx k f).data
      = (pfx ++ ".").data ++ (k.data ++ '.' :: f.data) := by
    rw [fieldKey_data, String.data_append]
    simp
  rw [h1]
  exact listStarts_append _ _

/-! ## Behaviour of `removeKey` and `readKey` -/

theorem getItem_removeKey_same (pfx : String) (s : Storage) (k f : String)
    (hf : f ∈ fields) :
    getItem (removeKey pfx s k) (fieldKey pfx k f) = none := by
  simp only [fields, List.mem_cons, List.not_mem_nil, or_false] at hf
  unfold removeKey
  rcases hf with rfl | rfl | rfl
  · rw [getItem_removeItem_other _ _ _
      (fieldKey_distinct_fields mem_fields_created mem_fields_value (by decide)),
      getItem_removeItem_other _ _ _
      (fieldKey_distinct_fields mem_fields_created mem_fields_expires (by decide))]
    exact getItem_removeItem_self _ _
  · rw [getItem_removeItem_other _ _ _
      (fieldKey_distinct_fields mem_fields_expires mem_fields_value (by decide))]
    exact getItem_removeItem_self _ _
  · exact getItem_removeItem_self _ _

theorem getItem_removeKey_other (pfx : String) (s : Storage) (k q : String)
    (h1 : q ≠ fieldKey pfx k "created") (h2 : q ≠ fieldKey pfx k "expires")
    (h3 : q ≠ fieldKey pfx k "value") :
    getItem (removeKey pfx s k) q = getItem s q := by
  unfold removeKey
  rw [getItem_removeItem_other _ _ _ h3, getItem_removeItem_other _ _ _ h2,
    getItem_removeItem_other _ _ _ h1]

theorem getItem_removeKey_ne_key (pfx : String) (s : Storage) (k k' f : String)
    (hf : f ∈ fields) (hne : k ≠ k') :
    getItem (removeKey pfx s k') (fieldKey pfx k f) = getItem s (fieldKey pfx k f) :=
  getItem_removeKey_other pfx s k' _
    (fieldKey_distinct_keys hf mem_fields_created hne)
    (fieldKey_distinct_keys hf mem_fields_expires hne)
    (fieldKey_distinct_keys hf mem_fields_value hne)

theorem readKey_eq_badCreated (pfx : String) (now : Nat) (s : Storage) (k : String)
    (hc : parseIntOpt (getItem s (fieldKey pfx k "created")) = none) :
    readKey pfx now s k = (none, removeKey pfx s k) := by
  unfold readKey
  rw [hc]

theorem readKey_eq_badExpires (pfx : String) (now : Nat) (s : Storage) (k : String)
    (c : Int) (hc : parseIntOpt (getItem s (fieldKey pfx k "created")) = some c)
    (he : parseIntOpt (getItem s (fieldKey pfx k "expires")) = none) :
    readKey pfx now s k = (none, removeKey pfx s k) := by
  unfold readKey
  rw [hc, he]

theorem readKey_eq_noValue (pfx : String) (now : Nat) (s : Storage) (k : String)
    (c e : Int) (hc : parseIntOpt (getItem s (fieldKey pfx k "created")) = some c)
    (he : parseIntOpt (getItem s (fieldKey pfx k "expires")) = some e)
    (hv : getItem s (fieldKey pfx k "value") = none) :
    readKey pfx now s k = (none, removeKey pfx s k) := by
  unfold readKey
  rw [hc, he, hv]

theorem readKey_eq_expired (pfx : String) (now : Nat) (s : Storage) (k : String)
    (c e : Int) (v : String)
    (hc : parseIntOpt (getItem s (fieldKey pfx k "created")) = some c)
    (he : parseIntOpt (getItem s (fieldKey pfx k "expires")) = some e)
    (hv : getItem s (fieldKey pfx k "value") = some v)
    (hex : (now : Int) > e) :
    readKey pfx now s k = (none, removeKey pfx s k) := by
  unfold readKey
  rw [hc, he, hv]
  show (if (now : Int) > e then ((none : Option KeyData), removeKey pfx s k)
    else (some ⟨c, e, v⟩, s)) = _
  rw [if_pos hex]

theorem readKey_eq_valid (pfx : String) (now : Nat) (s : Storage) (k : String)
    (c e : Int) (v : String)
    (hc : parseIntOpt (getItem s (fieldKey pfx k "created")) = some c)
    (he : parseIntOpt (getItem s (fieldKey pfx k "expires")) = some e)
    (hv : getItem s (fieldKey pfx k "value") = some v)
    (hex : ¬ (now : Int) > e) :
    readKey pfx now s k = (some ⟨c, e, v⟩, s) := by
  unfold readKey
  rw [hc, he, hv]
  show (if (now : Int) > e then ((none : Option KeyData), removeKey pfx s k)
    else (some ⟨c, e, v⟩, s)) = _
  rw [if_neg hex]

/-- `readKey` either succeeds without touching the backend or fails
having run `removeKey`. -/
theorem readKey_cases (pfx : String) (now : Nat) (s : Storage) (k : String) :
    (∃ kd, readKey pfx now s k = (some kd, s)) ∨
      readKey pfx now s k = (none, removeKey pfx s k) := by
  rcases hc : parseIntOpt (getItem s (fieldKey pfx k "created")) with _ | c
  · exact Or.inr (readKey_eq_badCreated pfx now s k hc)
  rcases he : parseIntOpt (getItem s (fieldKey pfx k "expires")) with _ | e
  · exact Or.inr (readKey_eq_badExpires pfx now s k c hc he)
  rcases hv : getItem s (fieldKey pfx k "value") with _ | v
  · exact Or.inr (readKey_eq_noValue pfx now s k c e hc he hv)
  by_cases hex : (now : Int) > e
  · exact Or.inr (readKey_eq_expired pfx now s k c e v hc he hv hex)
  · exact Or.inl ⟨⟨c, e, v⟩, readKey_eq_valid pfx now s k c e v hc he hv hex⟩

/-- The decoded result only depends on the three physical fields of the
logical key. -/
theorem readKey_fst_agrees (pfx : String) (now : Nat) (s1 s2 : Storage)
    (k : String)
    (h1 : getItem s1 (fieldKey pfx k "created") = getItem s2 (fieldKey pfx k "created"))
    (h2 : getItem s1 (fieldKey pfx k "expires") = getItem s2 (fieldKey pfx k "expires"))
    (h3 : getItem s1 (fieldKey pfx k "value") = getItem s2 (fieldKey pfx k "value")) :
    (readKey pfx now s1 k).1 = (readKey pfx now s2 k).1 := by
  unfold readKey
  rw [h1, h2, h3]
  rcases parseIntOpt (getItem s2 (fieldKey pfx k "created")) with _ | c
  · rfl
  rcases parseIntOpt (getItem s2 (fieldKey pfx k "expires")) with _ | e
  · rfl
  rcases getItem s2 (fieldKey pfx k "value") with _ | v
  · rfl
  show (if (now : Int) > e then ((none : Option KeyData), removeKey pfx s1 k)
      else (some ⟨c, e, v⟩, s1)).1
    = (if (now : Int) > e then ((none : Option KeyData), removeKey pfx s2 k)
      else (some ⟨c, e, v⟩, s2)).1
  by_cases hex : (now : Int) > e
  · rw [if_pos hex, if_pos hex]
  · rw [if_neg hex, if_neg hex]

theorem parseIntOpt_some (str : String) :
    parseIntOpt (some str) = parseIntStr str := rfl

/-- The three physical entries produced by a `write`. -/
theorem write_getItems (pfx : String) (enc : String → String) (t : Nat)
    (s : Storage) (u v : String) (ttl : Int) :
    getItem (write pfx enc t s u v ttl)
        (fieldKey pfx (getKeyName enc u) "created") = some (natToStr t) ∧
    getItem (write pfx enc t s u v ttl)
        (fieldKey pfx (getKeyName enc u) "expires") = some (intToStr ((t : Int) + ttl)) ∧
    getItem (write pfx enc t s u v ttl)
        (fieldKey pfx (getKeyName enc u) "value") = some v := by
  unfold write setKey
  refine ⟨?_, ?_, ?_⟩
  · rw [getItem_setItem_other _ _ _ _
      (fieldKey_distinct_fields mem_fields_created mem_fields_value (by decide)),
      getItem_setItem_other _ _ _ _
      (fieldKey_distinct_fields mem_fields_created mem_fields_expires (by decide))]
    exact getItem_setItem_self _ _ _
  · rw [getItem_setItem_other _ _ _ _
      (fieldKey_distinct_fields mem_fields_expires mem_fields_value (by decide))]
    exact getItem_setItem_self _ _ _
  · exact getItem_setItem_self _ _ _

/-! ## Claims -/

/-- **C1.** For every identifier `u`, value `v`, and `ttl > 0`,
immediately after `write(u, v, ttl)` (with the storage backend available
and the key encoder fixed), `read(u)` returns `v`. -/
theorem claim1_write_then_read (pfx : String) (enc : String → String)
    (t : Nat) (s : Storage) (u v : String) (ttl : Int) (h : 0 < ttl) :
    (read pfx enc t (write pfx enc t s u v ttl) u).1 = some v := by
  obtain ⟨hc, he, hv⟩ := write_getItems pfx enc t s u v ttl
  have hrk : readKey pfx t (write pfx enc t s u v ttl) (getKeyName enc u)
      = (some ⟨(t : Int), (t : Int) + ttl, v⟩, write pfx enc t s u v ttl) := by
    refine readKey_eq_valid _ _ _ _ _ _ _ ?_ ?_ ?_ (by omega)
    · rw [hc]
      exact (parseIntOpt_some _).trans (parseIntStr_natToStr t)
    · rw [he]
      exact (parseIntOpt_some _).trans (parseIntStr_intToStr _)
    · exact hv
  simp only [read, hrk]

/-- Witness for C1 at a concrete input (prefix `"cache"`, the default
hash as encoder, empty backend, `ttl = 1`). -/
theorem claim1_write_then_read_witness :
    (0 : Int) < 1 ∧
      (read "cache" hash 100 (write "cache" hash 100 [] "u" "v" 1) "u").1
        = some "v" :=
  ⟨by decide, claim1_write_then_read "cache" hash 100 [] "u" "v" 1 (by decide)⟩

/-- Core expiry fact shared by several claims: reading strictly after the
stored expiry second yields `null`. -/
theorem read_write_expired (pfx : String) (enc : String → String)
    (t1 t2 : Nat) (s : Storage) (u v : String) (ttl : Int)
    (h : (t2 : Int) > (t1 : Int) + ttl) :
    (read pfx enc t2 (write pfx enc t1 s u v ttl) u).1 = none := by
  obtain ⟨hc, he, hv⟩ := write_getItems pfx enc t1 s u v ttl
  have hrk : readKey pfx t2 (write pfx enc t1 s u v ttl) (getKeyName enc u)
      = (none, removeKey pfx (write pfx enc t1 s u v ttl) (getKeyName enc u)) := by
    refine readKey_eq_expired _ _ _ _ (t1 : Int) ((t1 : Int) + ttl) v ?_ ?_ ?_ h
    · rw [hc]
      exact (parseIntOpt_some _).trans (parseIntStr_natToStr t1)
    · rw [he]
      exact (parseIntOpt_some _).trans (parseIntStr_intToStr _)
    · exact hv
  simp only [read, hrk]

/-- **C2.** For every identifier `u`, value `v`, and `ttl > 0`: after
`write(u, v, ttl)` at second `t1`, once more than `ttl` seconds have
elapsed — the current time `t2` in whole seconds exceeds the stored
`expiresAt = t1 + ttl` — `read(u)` returns absent (`null`). -/
theorem claim2_read_after_expiry (pfx : String) (enc : String → String)
    (t1 t2 : Nat) (s : Storage) (u v : String) (ttl : Int)
    (h : (t2 : Int) > (t1 : Int) + ttl) :
    (read pfx enc t2 (write pfx enc t1 s u v ttl) u).1 = none :=
  read_write_expired pfx enc t1 t2 s u v ttl h

/-- Witness for C2 at a concrete input (`ttl = 1`, written at second 100,
read at second 102 > 101). -/
theorem claim2_read_after_expiry_witness :
    ((102 : Nat) : Int) > ((100 : Nat) : Int) + 1 ∧
      (read "cache" hash 102 (write "cache" hash 100 [] "u" "v" 1) "u").1
        = none :=
  ⟨by decide, claim2_read_after_expiry "cache" hash 100 102 [] "u" "v" 1 (by decide)⟩

/-- **C4.** For every storage state in which, for a logical key `k`, any
of the three physical fields is missing or either timestamp field fails
to parse as an integer, `readKey(k)` returns absent (`null`).  (`readKey`
is modelled as a total function, so no exception can be thrown.) -/
theorem claim4_corrupt_readKey (pfx : String) (now : Nat) (s : Storage)
    (k : String)
    (h : parseIntOpt (getItem s (fieldKey pfx k "created")) = none ∨
      parseIntOpt (getItem s (fieldKey pfx k "expires")) = none ∨
      getItem s (fieldKey pfx k "value") = none) :
    (readKey pfx now s k).1 = none := by
  rcases hc : parseIntOpt (getItem s (fieldKey pfx k "created")) with _ | c
  · rw [readKey_eq_badCreated pfx now s k hc]
  rcases he : parseIntOpt (getItem s (fieldKey pfx k "expires")) with _ | e
  · rw [readKey_eq_badExpires pfx now s k c hc he]
  rcases hv : getItem s (fieldKey pfx k "value") with _ | v
  · rw [readKey_eq_noValue pfx now s k c e hc he hv]
  rcases h with h | h | h
  · rw [hc] at h; exact absurd h (by simp)
  · rw [he] at h; exact absurd h (by simp)
  · rw [hv] at h; exact absurd h (by simp)

/-- Witness for C4: only the `value` field set (the spec's corruption
scenario), and, as hypothesis, its timestamp entries indeed missing. -/
theorem claim4_corrupt_readKey_witness :
    (parseIntOpt (getItem [("cache.k.value", "v")]
        (fieldKey "cache" "k" "created")) = none ∨
      parseIntOpt (getItem [("cache.k.value", "v")]
        (fieldKey "cache" "k" "expires")) = none ∨
      getItem [("cache.k.value", "v")] (fieldKey "cache" "k" "value") = none) ∧
    (readKey "cache" 100 [("cache.k.value", "v")] "k").1 = none :=
  ⟨Or.inl (by decide),
    claim4_corrupt_readKey "cache" 100 [("cache.k.value", "v")] "k"
      (Or.inl (by decide))⟩

/-- **C5, counterexample.** The claim states that `write(u, v, ttl)` with
`ttl = 0` produces a record that is already expired at write time, with
`read(u)` immediately returning absent.  In fact `readKey` uses the
strict comparison `now > expires`, and with `ttl = 0` the stored
`expiresAt` equals the write second, so an immediate `read` still
returns the value. -/
theorem claim5_counterexample :
    (read "cache" hash 100 (write "cache" hash 100 [] "u" "v" 0) "u").1
      = some "v" := by decide

/-- **C5, amended.** `write` with `ttl ≤ 0` succeeds (the record is
stored; no validation rejects it).  With `ttl < 0` the record is already
expired at write time and `read(u)` immediately returns absent; with
`ttl = 0` the record only becomes absent once the current second exceeds
the write second (an immediate read in the same second still returns the
value, see the counterexample). -/
theorem claim5_amended (pfx : String) (enc : String → String) (t : Nat)
    (s : Storage) (u v : String) (ttl : Int) (h : ttl ≤ 0) :
    getItem (write pfx enc t s u v ttl)
        (fieldKey pfx (getKeyName enc u) "value") = some v ∧
    (ttl < 0 → (read pfx enc t (write pfx enc t s u v ttl) u).1 = none) ∧
    (∀ t2 : Nat, t < t2 →
      (read pfx enc t2 (write pfx enc t s u v ttl) u).1 = none) := by
  obtain ⟨hc, he, hv⟩ := write_getItems pfx enc t s u v ttl
  refine ⟨hv, ?_, ?_⟩
  · intro hneg
    exact read_write_expired pfx enc t t s u v ttl (by omega)
  · intro t2 ht2
    exact read_write_expired pfx enc t t2 s u v ttl (by omega)

/-- Witness for the amended C5 (`ttl = -1`, and a later read for the
third conjunct). -/
theorem claim5_amended_witness :
    (-1 : Int) ≤ 0 ∧
      (getItem (write "cache" hash 100 [] "u" "v" (-1))
          (fieldKey "cache" (getKeyName hash "u") "value") = some "v" ∧
        ((-1 : Int) < 0 →
          (read "cache" hash 100 (write "cache" hash 100 [] "u" "v" (-1)) "u").1
            = none) ∧
        (∀ t2 : Nat, 100 < t2 →
          (read "cache" hash t2 (write "cache" hash 100 [] "u" "v" (-1)) "u").1
            = none)) :=
  ⟨by decide, claim5_amended "cache" hash 100 [] "u" "v" (-1) (by decide)⟩

/-- **C10.** Whenever `readKey(k)` returns absent — missing field,
non-parsing timestamp, or expiry — the resulting backend state has all
three physical entries of `k` removed, and the entry of every other
physical key is unchanged. -/
theorem claim10_selfheal_frame (pfx : String) (now : Nat) (s : Storage)
    (k : String) (h : (readKey pfx now s k).1 = none) :
    getItem (readKey pfx now s k).2 (fieldKey pfx k "created") = none ∧
    getItem (readKey pfx now s k).2 (fieldKey pfx k "expires") = none ∧
    getItem (readKey pfx now s k).2 (fieldKey pfx k "value") = none ∧
    ∀ q : String, q ≠ fieldKey pfx k "created" →
      q ≠ fieldKey pfx k "expires" → q ≠ fieldKey pfx k "value" →
      getItem (readKey pfx now s k).2 q = getItem s q := by
  rcases readKey_cases pfx now s k with ⟨kd, hk⟩ | hk
  · rw [hk] at h
    exact absurd h (by simp)
  · rw [hk]
    exact ⟨getItem_removeKey_same pfx s k "created" mem_fields_created,
      getItem_removeKey_same pfx s k "expires" mem_fields_expires,
      getItem_removeKey_same pfx s k "value" mem_fields_value,
      fun q h1 h2 h3 => getItem_removeKey_other pfx s k q h1 h2 h3⟩

/-- Witness for C10: an expired record (written at 10, expires 50, read
at 100) is physically erased while an unrelated entry survives. -/
theorem claim10_selfheal_frame_witness :
    (readKey "cache" 100 [("cache.k.created", "10"), ("cache.k.expires", "50"),
        ("cache.k.value", "v"), ("other.x", "w")] "k").1 = none ∧
    (getItem (readKey "cache" 100 [("cache.k.created", "10"),
        ("cache.k.expires", "50"), ("cache.k.value", "v"), ("other.x", "w")] "k").2
        (fieldKey "cache" "k" "created") = none ∧
      getItem (readKey "cache" 100 [("cache.k.created", "10"),
        ("cache.k.expires", "50"), ("cache.k.value", "v"), ("other.x", "w")] "k").2
        (fieldKey "cache" "k" "expires") = none ∧
      getItem (readKey "cache" 100 [("cache.k.created", "10"),
        ("cache.k.expires", "50"), ("cache.k.value", "v"), ("other.x", "w")] "k").2
        (fieldKey "cache" "k" "value") = none ∧
      ∀ q : String, q ≠ fieldKey "cache" "k" "created" →
        q ≠ fieldKey "cache" "k" "expires" → q ≠ fieldKey "cache" "k" "value" →
        getItem (readKey "cache" 100 [("cache.k.created", "10"),
          ("cache.k.expires", "50"), ("cache.k.value", "v"), ("other.x", "w")] "k").2 q
          = getItem [("cache.k.created", "10"), ("cache.k.expires", "50"),
            ("cache.k.value", "v"), ("other.x", "w")] q) :=
  ⟨by decide,
    claim10_selfheal_frame "cache" 100 [("cache.k.created", "10"),
      ("cache.k.expires", "50"), ("cache.k.value", "v"), ("other.x", "w")] "k"
      (by decide)⟩

/-- **C8.** Constructing a Cache Store throws exactly when the configured
storage backend is absent or when the liveness probe (write-then-remove of
a throwaway probe key) raises; on a throw no instance is returned, and
with an available backend whose probe succeeds construction succeeds. -/
theorem claim8_construct_iff (pfx : String) (storage : Option Storage)
    (probeOk : Bool) (nowMs : Nat) :
    (∃ r, construct pfx storage probeOk nowMs = Except.ok r) ↔
      (storage ≠ none ∧ probeOk = true) := by
  cases storage with
  | none => simp [construct]
  | some s =>
    cases probeOk with
    | false => simp [construct]
    | true => simp [construct]

/-- **C6, evaluation at the failing input.** `removeAll()` iterates
`for (i = 0; i < storage.length; i++)` while removing entries, so each
removal shifts the next entry into the already-visited position `i`.
With the six entries of two valid records interleaved, the pass deletes
the three `b` entries and skips all three `a` entries, and the subsequent
`getKeyNames()` still reports `"a"` — the claim expects `[]`. -/
theorem claim6_removeAll_failing_input :
    removeAll "cache"
        [("cache.b.created", "10"), ("cache.a.created", "10"),
         ("cache.b.expires", "999"), ("cache.a.expires", "999"),
         ("cache.b.value", "vb"), ("cache.a.value", "va")]
      = [("cache.a.created", "10"), ("cache.a.expires", "999"),
         ("cache.a.value", "va")] ∧
    (getKeyNames "cache" 100 (removeAll "cache"
        [("cache.b.created", "10"), ("cache.a.created", "10"),
         ("cache.b.expires", "999"), ("cache.a.expires", "999"),
         ("cache.b.value", "vb"), ("cache.a.value", "va")])).1
      = ["a"] := by decide

set_option maxRecDepth 40000 in
/-- **C7, evaluation at the failing input.** `removeKeysCreatedBefore`
iterates over storage positions while `readKey`'s self-healing deletions
shift entries; three expired records, each deleted when its first entry
is visited, shift the `a` entries (a valid record with
`createdAt = 10 < 50 = cutoff`) past the loop index one by one, so the
record the operation should remove survives intact. -/
theorem claim7_removeBefore_failing_input :
    (readKey "cache" 100
        [("cache.e1.created", "10"), ("cache.e1.expires", "50"), ("cache.e1.value", "x1"),
         ("cache.a.created", "10"),
         ("cache.e2.created", "10"), ("cache.e2.expires", "50"), ("cache.e2.value", "x2"),
         ("cache.a.expires", "999"),
         ("cache.e3.created", "10"), ("cache.e3.expires", "50"), ("cache.e3.value", "x3"),
         ("cache.a.value", "va")] "a").1 = some ⟨10, 999, "va"⟩ ∧
    (10 : Int) < 50 ∧
    removeKeysCreatedBefore "cache" 100 50
        [("cache.e1.created", "10"), ("cache.e1.expires", "50"), ("cache.e1.value", "x1"),
         ("cache.a.created", "10"),
         ("cache.e2.created", "10"), ("cache.e2.expires", "50"), ("cache.e2.value", "x2"),
         ("cache.a.expires", "999"),
         ("cache.e3.created", "10"), ("cache.e3.expires", "50"), ("cache.e3.value", "x3"),
         ("cache.a.value", "va")]
      = [("cache.a.created", "10"), ("cache.a.expires", "999"),
         ("cache.a.value", "va")] := by decide

/-! ## Namespace isolation (frame lemmas for C9) -/

theorem ne_fieldKey_of_not_starts {pfx q : String}
    (hq : jsStartsWith (pfx ++ ".") q = false) (k f : String) :
    q ≠ fieldKey pfx k f := by
  intro hc
  rw [hc, jsStartsWith_fieldKey] at hq
  exact Bool.true_eq_false ▸ hq.symm ▸ rfl

theorem setKey_frame (pfx : String) (now : Nat) (s : Storage)
    (k v : String) (ttl : Int) (q : String)
    (hq : jsStartsWith (pfx ++ ".") q = false) :
    getItem (setKey pfx now s k v ttl) q = getItem s q := by
  unfold setKey
  rw [getItem_setItem_other _ _ _ _ (ne_fieldKey_of_not_starts hq k "value"),
    getItem_setItem_other _ _ _ _ (ne_fieldKey_of_not_starts hq k "expires"),
    getItem_setItem_other _ _ _ _ (ne_fieldKey_of_not_starts hq k "created")]

theorem removeKey_frame (pfx : String) (s : Storage) (k q : String)
    (hq : jsStartsWith (pfx ++ ".") q = false) :
    getItem (removeKey pfx s k) q = getItem s q :=
  getItem_removeKey_other pfx s k q
    (ne_fieldKey_of_not_starts hq k "created")
    (ne_fieldKey_of_not_starts hq k "expires")
    (ne_fieldKey_of_not_starts hq k "value")

theorem readKey_frame (pfx : String) (now : Nat) (s : Storage) (k q : String)
    (hq : jsStartsWith (pfx ++ ".") q = false) :
    getItem (readKey pfx now s k).2 q = getItem s q := by
  rcases readKey_cases pfx now s k with ⟨kd, hk⟩ | hk
  · rw [hk]
  · rw [hk]
    exact removeKey_frame pfx s k q hq

theorem read_snd (pfx : String) (enc : String → String) (now : Nat)
    (s : Storage) (u : String) :
    (read pfx enc now s u).2 = (readKey pfx now s (getKeyName enc u)).2 := by
  show (match (readKey pfx now s (getKeyName enc u)).1 with
    | none => ((none : Option String), (readKey pfx now s (getKeyName enc u)).2)
    | some kd => (some kd.value, (readKey pfx now s (getKeyName enc u)).2)).2
    = (readKey pfx now s (getKeyName enc u)).2
  rcases (readKey pfx now s (getKeyName enc u)).1 with _ | kd
  · rfl
  · rfl

theorem filterValid_snd (pfx : String) (now : Nat) (k : String)
    (ks : List String) (s : Storage) :
    (filterValid pfx now (k :: ks) s).2
      = (filterValid pfx now ks (readKey pfx now s k).2).2 := by
  show (match (readKey pfx now s k).1 with
    | some _ => (k :: (filterValid pfx now ks (readKey pfx now s k).2).1,
        (filterValid pfx now ks (readKey pfx now s k).2).2)
    | none => filterValid pfx now ks (readKey pfx now s k).2).2
    = (filterValid pfx now ks (readKey pfx now s k).2).2
  rcases (readKey pfx now s k).1 with _ | kd
  · rfl
  · rfl

theorem filterValid_frame (pfx : String) (now : Nat) (ks : List String)
    (s : Storage) (q : String)
    (hq : jsStartsWith (pfx ++ ".") q = false) :
    getItem (filterValid pfx now ks s).2 q = getItem s q := by
  induction ks generalizing s with
  | nil => rfl
  | cons k ks ih =>
    rw [filterValid_snd, ih, readKey_frame pfx now s k q hq]

theorem removeAllLoop_frame (pfx : String) (fuel i : Nat) (s : Storage)
    (q : String) (hq : jsStartsWith (pfx ++ ".") q = false) :
    getItem (removeAllLoop pfx fuel i s) q = getItem s q := by
  induction fuel generalizing i s with
  | zero => rfl
  | succ fuel ih =>
    unfold removeAllLoop
    by_cases hlen : i < s.length
    · rw [if_pos hlen, ih]
      rcases hkey : keyAt s i with _ | key
      · rfl
      · by_cases hpre : jsStartsWith (pfx ++ ".") key = true
        · have hne : q ≠ key := fun hc => by
            rw [hc, hpre] at hq
            exact Bool.true_eq_false ▸ hq.symm ▸ rfl
          simp only [hpre, if_true]
          exact getItem_removeItem_other s key q hne
        · simp only [Bool.of_not_eq_true hpre, if_false]
          rfl
    · rw [if_neg hlen]

theorem removeOldLoop_frame (pfx : String) (now : Nat) (ts : Int)
    (fuel i : Nat) (s : Storage) (q : String)
    (hq : jsStartsWith (pfx ++ ".") q = false) :
    getItem (removeOldLoop pfx now ts fuel i s) q = getItem s q := by
  induction fuel generalizing i s with
  | zero => rfl
  | succ fuel ih =>
    unfold removeOldLoop
    by_cases hlen : i < s.length
    · rw [if_pos hlen, ih]
      rcases hkey : keyAt s i with _ | key
      · rfl
      · by_cases hpre : jsStartsWith (pfx ++ ".") key = true
        · simp only [hpre, if_true]
          rcases hrk : (readKey pfx now s (logicalOf pfx key)).1 with _ | kd
          · show getItem (readKey pfx now s (logicalOf pfx key)).2 q = getItem s q
            rw [readKey_frame pfx now s _ q hq]
          · show getItem (if kd.created < ts then
                removeKey pfx (readKey pfx now s (logicalOf pfx key)).2
                  (logicalOf pfx key)
              else (readKey pfx now s (logicalOf pfx key)).2) q = getItem s q
            by_cases hold : kd.created < ts
            · rw [if_pos hold, removeKey_frame pfx _ _ q hq,
                readKey_frame pfx now s _ q hq]
            · rw [if_neg hold, readKey_frame pfx now s _ q hq]
        · simp only [Bool.of_not_eq_true hpre, if_false]
          rfl
    · rw [if_neg hlen]

/-- **C9, counterexample.** The claim covers construction, but the
constructor's liveness probe writes and removes the key
`"test." + Date.now()`, which does not begin with the instance's prefix:
with an entry already stored under that exact key, construction destroys
it.  Here the backend holds `("test.5", "boom")`, construction at
millisecond 5 succeeds, and the returned state is empty. -/
theorem claim9_counterexample :
    jsStartsWith ("cache" ++ ".") "test.5" = false ∧
    getItem [("test.5", "boom")] "test.5" = some "boom" ∧
    construct "cache" (some [("test.5", "boom")]) true 5
      = Except.ok ("cache", []) ∧
    getItem [] "test.5" = none := ⟨rfl, rfl, rfl, rfl⟩

/-- **C9, amended.** Every operation of a Cache Store instance other than
construction touches only entries whose key begins with the instance's
prefix followed by the separator: for every physical key `q` outside that
namespace, the value of `q` is unchanged by `write`, `read`, `readKey`,
`setKey`, `removeKey`, `getKeyNames`, `removeOutdatedKeys`, `removeAll`
and `removeKeysCreatedBefore`.  Construction is the exception: its probe
writes and then removes the unprefixed key `"test." + Date.now()`
(see the counterexample). -/
theorem claim9_amended_frame (pfx : String) (enc : String → String)
    (now : Nat) (ts ttl : Int) (s : Storage) (u v k q : String)
    (hq : jsStartsWith (pfx ++ ".") q = false) :
    getItem (write pfx enc now s u v ttl) q = getItem s q ∧
    getItem (read pfx enc now s u).2 q = getItem s q ∧
    getItem (readKey pfx now s k).2 q = getItem s q ∧
    getItem (setKey pfx now s k v ttl) q = getItem s q ∧
    getItem (removeKey pfx s k) q = getItem s q ∧
    getItem (getKeyNames pfx now s).2 q = getItem s q ∧
    getItem (removeOutdatedKeys pfx now s) q = getItem s q ∧
    getItem (removeAll pfx s) q = getItem s q ∧
    getItem (removeKeysCreatedBefore pfx now ts s) q = getItem s q := by
  refine ⟨setKey_frame pfx now s _ v ttl q hq, ?_,
    readKey_frame pfx now s k q hq, setKey_frame pfx now s k v ttl q hq,
    removeKey_frame pfx s k q hq, filterValid_frame pfx now _ s q hq,
    filterValid_frame pfx now _ s q hq,
    removeAllLoop_frame pfx _ 0 s q hq,
    removeOldLoop_frame pfx now ts _ 0 s q hq⟩
  rw [read_snd]
  exact readKey_frame pfx now s _ q hq

/-- Witness for the amended C9 at a concrete input: the entry
`("other.x", "w")` is untouched by every operation of the `"cache"`
instance. -/
theorem claim9_amended_frame_witness :
    jsStartsWith ("cache" ++ ".") "other.x" = false ∧
    (getItem (write "cache" hash 100 [("other.x", "w")] "u" "v" 1) "other.x"
        = getItem [("other.x", "w")] "other.x" ∧
      getItem (read "cache" hash 100 [("other.x", "w")] "u").2 "other.x"
        = getItem [("other.x", "w")] "other.x" ∧
      getItem (readKey "cache" 100 [("other.x", "w")] "k").2 "other.x"
        = getItem [("other.x", "w")] "other.x" ∧
      getItem (setKey "cache" 100 [("other.x", "w")] "k" "v" 1) "other.x"
        = getItem [("other.x", "w")] "other.x" ∧
      getItem (removeKey "cache" [("other.x", "w")] "k") "other.x"
        = getItem [("other.x", "w")] "other.x" ∧
      getItem (getKeyNames "cache" 100 [("other.x", "w")]).2 "other.x"
        = getItem [("other.x", "w")] "other.x" ∧
      getItem (removeOutdatedKeys "cache" 100 [("other.x", "w")]) "other.x"
        = getItem [("other.x", "w")] "other.x" ∧
      getItem (removeAll "cache" [("other.x", "w")]) "other.x"
        = getItem [("other.x", "w")] "other.x" ∧
      getItem (removeKeysCreatedBefore "cache" 100 50 [("other.x", "w")]) "other.x"
        = getItem [("other.x", "w")] "other.x") :=
  ⟨by decide,
    claim9_amended_frame "cache" hash 100 50 1 [("other.x", "w")] "u" "v" "k"
      "other.x" (by decide)⟩

/-! ## Enumeration (`getKeyNames`, C3) -/

theorem sepFree_takeWhile (l : List Char) :
    (l.takeWhile (fun c => c != '.')).all (fun c => c != '.') = true := by
  rw [List.all_eq_true]
  intro c hc
  exact @List.mem_takeWhile_imp _ (fun c => c != '.') l c hc

theorem takeWhile_append_sep (l r : List Char)
    (h : ∀ c ∈ l, (c != '.') = true) :
    (l ++ '.' :: r).takeWhile (fun c => c != '.') = l := by
  induction l with
  | nil => simp [List.takeWhile_cons]
  | cons a t ih =>
    rw [List.cons_append, List.takeWhile_cons,
      if_pos (h a (List.mem_cons_self _ _)),
      ih (fun c hc => h c (List.mem_cons_of_mem _ hc))]

/-- On a physical key of this instance whose logical key is
separator-free, the logical-key extraction recovers the logical key. -/
theorem logicalOf_fieldKey (pfx k f : String)
    (hk : k.data.all (fun c => c != '.') = true) :
    logicalOf pfx (fieldKey pfx k f) = k := by
  unfold logicalOf
  rw [fieldKey_data]
  have hsplit : pfx.data ++ '.' :: (k.data ++ '.' :: f.data)
      = (pfx.data ++ ['.']) ++ (k.data ++ '.' :: f.data) := by
    rw [List.append_assoc]
    rfl
  have hlen : pfx.length + 1 = (pfx.data ++ ['.']).length := by
    rw [List.length_append]
    rfl
  rw [hsplit, hlen, List.drop_left,
    takeWhile_append_sep _ _ (List.all_eq_true.mp hk)]

theorem mem_foldl_collect (pfx k : String) :
    ∀ (s : Storage) (acc : List String),
      (k ∈ s.foldl (fun acc e =>
        if jsStartsWith (pfx ++ ".") e.1 then
          if logicalOf pfx e.1 ∈ acc then acc else acc ++ [logicalOf pfx e.1]
        else acc) acc
      ↔ (k ∈ acc ∨
          ∃ e ∈ s, jsStartsWith (pfx ++ ".") e.1 = true ∧ logicalOf pfx e.1 = k)) := by
  intro s
  induction s with
  | nil =>
    intro acc
    simp
  | cons e t ih =>
    intro acc
    rw [List.foldl_cons, ih]
    constructor
    · rintro (hacc | ⟨e2, hmem, hp, hl⟩)
      · by_cases hpre : jsStartsWith (pfx ++ ".") e.1 = true
        · rw [if_pos hpre] at hacc
          by_cases hmem : logicalOf pfx e.1 ∈ acc
          · rw [if_pos hmem] at hacc
            exact Or.inl hacc
          · rw [if_neg hmem] at hacc
            rcases List.mem_append.mp hacc with h | h
            · exact Or.inl h
            · exact Or.inr ⟨e, List.mem_cons_self _ _, hpre,
                (List.mem_singleton.mp h).symm⟩
        · rw [if_neg hpre] at hacc
          exact Or.inl hacc
      · exact Or.inr ⟨e2, List.mem_cons_of_mem _ hmem, hp, hl⟩
    · rintro (hacc | ⟨e2, hmem, hp, hl⟩)
      · left
        by_cases hpre : jsStartsWith (pfx ++ ".") e.1 = true
        · rw [if_pos hpre]
          by_cases hmem : logicalOf pfx e.1 ∈ acc
          · rw [if_pos hmem]
            exact hacc
          · rw [if_neg hmem]
            exact List.mem_append.mpr (Or.inl hacc)
        · rw [if_neg hpre]
          exact hacc
      · rcases List.mem_cons.mp hmem with rfl | hmem2
        · left
          rw [if_pos hp]
          by_cases hmem : logicalOf pfx e2.1 ∈ acc
          · rw [if_pos hmem]
            exact hl ▸ hmem
          · rw [if_neg hmem]
            exact List.mem_append.mpr (Or.inr (by
              rw [← hl]
              exact List.mem_singleton_self _))
        · exact Or.inr ⟨e2, hmem2, hp, hl⟩

theorem mem_collectKeys (pfx : String) (s : Storage) (k : String) :
    k ∈ collectKeys pfx s ↔
      ∃ e ∈ s, jsStartsWith (pfx ++ ".") e.1 = true ∧ logicalOf pfx e.1 = k := by
  unfold collectKeys
  rw [mem_foldl_collect]
  simp

theorem nodup_foldl_collect (pfx : String) :
    ∀ (s : Storage) (acc : List String), acc.Nodup →
      (s.foldl (fun acc e =>
        if jsStartsWith (pfx ++ ".") e.1 then
          if logicalOf pfx e.1 ∈ acc then acc else acc ++ [logicalOf pfx e.1]
        else acc) acc).Nodup := by
  intro s
  induction s with
  | nil =>
    intro acc hacc
    exact hacc
  | cons e t ih =>
    intro acc hacc
    rw [List.foldl_cons]
    refine ih _ ?_
    by_cases hpre : jsStartsWith (pfx ++ ".") e.1 = true
    · rw [if_pos hpre]
      by_cases hmem : logicalOf pfx e.1 ∈ acc
      · rw [if_pos hmem]
        exact hacc
      · rw [if_neg hmem]
        simp [List.nodup_append, hacc, hmem]
    · rw [if_neg hpre]
      exact hacc

theorem collectKeys_nodup (pfx : String) (s : Storage) :
    (collectKeys pfx s).Nodup :=
  nodup_foldl_collect pfx s [] List.nodup_nil

theorem collectKeys_sepFree (pfx : String) (s : Storage) (k : String)
    (h : k ∈ collectKeys pfx s) : k.data.all (fun c => c != '.') = true := by
  rw [mem_collectKeys] at h
  obtain ⟨e, _, _, hl⟩ := h
  rw [← hl]
  exact sepFree_takeWhile _

theorem filterValid_cons_some (pfx : String) (now : Nat) (k0 : String)
    (ks : List String) (s : Storage) (kd : KeyData)
    (h : (readKey pfx now s k0).1 = some kd) :
    filterValid pfx now (k0 :: ks) s
      = (k0 :: (filterValid pfx now ks (readKey pfx now s k0).2).1,
         (filterValid pfx now ks (readKey pfx now s k0).2).2) := by
  show (match (readKey pfx now s k0).1 with
    | some _ => (k0 :: (filterValid pfx now ks (readKey pfx now s k0).2).1,
        (filterValid pfx now ks (readKey pfx now s k0).2).2)
    | none => filterValid pfx now ks (readKey pfx now s k0).2) = _
  rw [h]

theorem filterValid_cons_none (pfx : String) (now : Nat) (k0 : String)
    (ks : List String) (s : Storage)
    (h : (readKey pfx now s k0).1 = none) :
    filterValid pfx now (k0 :: ks) s
      = filterValid pfx now ks (readKey pfx now s k0).2 := by
  show (match (readKey pfx now s k0).1 with
    | some _ => (k0 :: (filterValid pfx now ks (readKey pfx now s k0).2).1,
        (filterValid pfx now ks (readKey pfx now s k0).2).2)
    | none => filterValid pfx now ks (readKey pfx now s k0).2) = _
  rw [h]

theorem filterValid_subset (pfx : String) (now : Nat) :
    ∀ (ks : List String) (s : Storage), (filterValid pfx now ks s).1 ⊆ ks := by
  intro ks
  induction ks with
  | nil =>
    intro s x hx
    exact absurd hx (List.not_mem_nil x)
  | cons k0 ks ih =>
    intro s x hx
    rcases hrk : (readKey pfx now s k0).1 with _ | kd
    · rw [filterValid_cons_none pfx now k0 ks s hrk] at hx
      exact List.mem_cons_of_mem _ (ih _ hx)
    · rw [filterValid_cons_some pfx now k0 ks s kd hrk] at hx
      rcases List.mem_cons.mp hx with rfl | hx2
      · exact List.mem_cons_self _ _
      · exact List.mem_cons_of_mem _ (ih _ hx2)

theorem filterValid_nodup (pfx : String) (now : Nat) :
    ∀ (ks : List String) (s : Storage), ks.Nodup →
      (filterValid pfx now ks s).1.Nodup := by
  intro ks
  induction ks with
  | nil =>
    intro s _
    exact List.nodup_nil
  | cons k0 ks ih =>
    intro s hnd
    obtain ⟨hk0, hkt⟩ := List.nodup_cons.mp hnd
    rcases hrk : (readKey pfx now s k0).1 with _ | kd
    · rw [filterValid_cons_none pfx now k0 ks s hrk]
      exact ih _ hkt
    · rw [filterValid_cons_some pfx now k0 ks s kd hrk]
      exact List.nodup_cons.mpr
        ⟨fun hc => hk0 (filterValid_subset pfx now ks _ hc), ih _ hkt⟩

theorem readKey_snd_preserves_other (pfx : String) (now : Nat) (s : Storage)
    (k' k f : String) (hf : f ∈ fields) (hne : k ≠ k') :
    getItem (readKey pfx now s k').2 (fieldKey pfx k f)
      = getItem s (fieldKey pfx k f) := by
  rcases readKey_cases pfx now s k' with ⟨kd, hk⟩ | hk
  · rw [hk]
  · rw [hk]
    exact getItem_removeKey_ne_key pfx s k k' f hf hne

/-- Membership in the surviving candidates is decided by `readKey` in the
original state: processing an earlier, distinct candidate only ever
removes that candidate's own three physical entries. -/
theorem filterValid_mem_iff (pfx : String) (now : Nat) (k : String) :
    ∀ (ks : List String) (s' s : Storage),
      (∀ f ∈ fields, getItem s' (fieldKey pfx k f) = getItem s (fieldKey pfx k f)) →
      ks.Nodup → k ∈ ks →
      (k ∈ (filterValid pfx now ks s').1 ↔ (readKey pfx now s k).1 ≠ none) := by
  intro ks
  induction ks with
  | nil =>
    intro s' s _ _ hk
    exact absurd hk (List.not_mem_nil k)
  | cons k0 ks ih =>
    intro s' s hagree hnd hk
    obtain ⟨hk0nin, hndt⟩ := List.nodup_cons.mp hnd
    by_cases hk0 : k0 = k
    · subst hk0
      have hfst : (readKey pfx now s' k0).1 = (readKey pfx now s k0).1 :=
        readKey_fst_agrees pfx now s' s k0
          (hagree "created" mem_fields_created)
          (hagree "expires" mem_fields_expires)
          (hagree "value" mem_fields_value)
      rcases hrk : (readKey pfx now s' k0).1 with _ | kd
      · rw [filterValid_cons_none pfx now k0 ks s' hrk]
        constructor
        · intro hmem
          exact absurd (filterValid_subset pfx now ks _ hmem) hk0nin
        · intro hne
          exact absurd (hfst.symm.trans hrk) hne
      · rw [filterValid_cons_some pfx now k0 ks s' kd hrk]
        constructor
        · intro _
          rw [← hfst, hrk]
          simp
        · intro _
          exact List.mem_cons_self _ _
    · have hkt : k ∈ ks :=
        (List.mem_cons.mp hk).resolve_left (fun hc => hk0 hc.symm)
      have hagree' : ∀ f ∈ fields,
          getItem (readKey pfx now s' k0).2 (fieldKey pfx k f)
            = getItem s (fieldKey pfx k f) := fun f hf => by
        rw [readKey_snd_preserves_other pfx now s' k0 k f hf
          (fun hc => hk0 hc.symm)]
        exact hagree f hf
      rcases hrk : (readKey pfx now s' k0).1 with _ | kd
      · rw [filterValid_cons_none pfx now k0 ks s' hrk]
        exact ih _ s hagree' hndt hkt
      · rw [filterValid_cons_some pfx now k0 ks s' kd hrk]
        rw [List.mem_cons]
        constructor
        · rintro (rfl | hmem)
          · exact absurd rfl hk0
          · exact (ih _ s hagree' hndt hkt).mp hmem
        · intro hne
          exact Or.inr ((ih _ s hagree' hndt hkt).mpr hne)

/-- **C3.** `getKeyNames()` returns a duplicate-free list containing
exactly the logical keys for which `readKey` currently returns a valid
record under this instance's namespace prefix: membership is equivalent
to `readKey(k)` succeeding in the pre-call state (every such key is
backed by the three `pfx`-prefixed physical entries, so no key coming
from an entry under a different namespace prefix can appear).  The
separator-freedom conjunct reflects the key-naming contract: the encoder
output must not contain the separator `.` (spec §6); a separator-carrying
logical key is never produced by enumeration. -/
theorem claim3_getKeyNames_exact (pfx : String) (now : Nat) (s : Storage) :
    (getKeyNames pfx now s).1.Nodup ∧
    ∀ k : String, (k ∈ (getKeyNames pfx now s).1 ↔
      ((readKey pfx now s k).1 ≠ none ∧
        k.data.all (fun c => c != '.') = true)) := by
  constructor
  · exact filterValid_nodup pfx now _ s (collectKeys_nodup pfx s)
  · intro k
    constructor
    · intro hmem
      have hck : k ∈ collectKeys pfx s := filterValid_subset pfx now _ s hmem
      refine ⟨?_, collectKeys_sepFree pfx s k hck⟩
      exact (filterValid_mem_iff pfx now k (collectKeys pfx s) s s
        (fun f _ => rfl) (collectKeys_nodup pfx s) hck).mp hmem
    · rintro ⟨hvalid, hsep⟩
      have hc : getItem s (fieldKey pfx k "created") ≠ none := by
        intro h0
        have hp : parseIntOpt (getItem s (fieldKey pfx k "created")) = none := by
          rw [h0]
          rfl
        have hbad := readKey_eq_badCreated pfx now s k hp
        rw [hbad] at hvalid
        exact hvalid rfl
      obtain ⟨e, hmem, hek⟩ := exists_mem_of_getItem s _ hc
      have hck : k ∈ collectKeys pfx s := by
        rw [mem_collectKeys]
        refine ⟨e, hmem, ?_, ?_⟩
        · rw [hek]
          exact jsStartsWith_fieldKey pfx k "created"
        · rw [hek]
          exact logicalOf_fieldKey pfx k "created" hsep
      exact (filterValid_mem_iff pfx now k (collectKeys pfx s) s s
        (fun f _ => rfl) (collectKeys_nodup pfx s) hck).mpr hvalid

end LsCache
